import Mathlib

/-!
Verification development for the negative-pair sampling engine of the ImRex
repository (src/processing/negative_sampler.py).

The embedding below translates the pandas/numpy code into pure list-processing
functions.  A data frame of cdr3/epitope/label rows becomes a list of Row
values; a possibly-missing (NaN) epitope cell becomes an Option String.
Randomness is modelled by an explicit index-choice function
pick : Nat -> Nat: every library sampling primitive draws the element at index
pick state % pool.length, advancing the state by one per draw.  This captures
exactly what the claims need from the RNG: a drawn element is a member of the
pool, draws without replacement are at distinct positions, and the whole
computation is a deterministic function of the seeds.  Paths on which the
Python code raises (assertion failures, pandas ValueError on oversized
samples, concatenating an empty list of frames, referencing the unbound local
logger) are modelled as none / error results.
-/

/-- One row of the working data frame: cdr3 sequence, epitope cell
(none models a NaN cell) and the class label y. -/
structure Row where
  cdr3 : String
  epitope : Option String
  y : Nat
deriving DecidableEq, Repr

/-- A cdr3/epitope cell pair, as stored in the deduplicated full reference
frame and as produced by the samplers before the label column is added. -/
abbrev SPair := String × Option String

/-- Key used by pandas duplicated / drop_duplicates with
subset cdr3, antigen.epitope.  Pandas treats two NaN cells as equal there,
which Option equality reproduces. -/
def rkey (r : Row) : SPair := (r.cdr3, r.epitope)

/-- Pandas cell equality (the == operator): a NaN cell compares unequal to
everything, including another NaN. -/
def cellEq (a b : Option String) : Bool :=
  match a, b with
  | some x, some y => decide (x = y)
  | _, _ => false

/-- Generic keep-first deduplication with an accumulator of already seen keys;
dedupKey f [] l models pandas drop_duplicates(keep="first") over key f, and
with f = id it models Series.unique(). -/
def dedupKeyAux {α κ : Type} [DecidableEq κ] (f : α → κ) : List κ → List α → List α
  | _, [] => []
  | seen, a :: rest =>
    if f a ∈ seen then dedupKeyAux f seen rest
    else a :: dedupKeyAux f (f a :: seen) rest

/-- Order-preserving unique (pandas Series.unique keeps first occurrences). -/
def uniqueF {α : Type} [DecidableEq α] (l : List α) : List α :=
  dedupKeyAux id [] l

/-- DataFrame.drop_duplicates(subset=[cdr3, epitope], keep="first"). -/
def dedupFirst (l : List Row) : List Row :=
  dedupKeyAux rkey [] l

/-- Rows marked by DataFrame.duplicated(subset=[cdr3, epitope], keep="last"):
every row whose key occurs again strictly later. -/
def dupKeepLast : List Row → List Row
  | [] => []
  | r :: rest =>
    (if rest.any (fun s => decide (rkey s = rkey r)) then [r] else []) ++ dupKeepLast rest

/-- Rows marked by DataFrame.duplicated(subset=[cdr3, epitope], keep=False):
every row whose key occurs at least twice in the frame. -/
def dupAllRows (l : List Row) : List Row :=
  l.filter (fun r => decide (2 ≤ l.countP (fun s => decide (rkey s = rkey r))))

/-- The assert after merging (negative_sampler.py lines 125-130): the labels
carried by the duplicated rows must have at most one unique value. -/
def labelsOk (l : List Row) : Bool :=
  decide ((uniqueF ((dupAllRows l).map (fun r => r.y))).length ≤ 1)

/-- The final assert (lines 214-216): no duplicate key remains. -/
def hasDupKeys (l : List Row) : Bool :=
  decide (¬ (l.map rkey).Nodup)

/-- The dropna(subset=[antigen.epitope]) step: keep rows with a present cell. -/
def dropnaEpitope (l : List Row) : List Row :=
  l.filter (fun r => r.epitope.isSome)

/-- Sampling n elements without replacement (numpy random.choice with
replace=False, and pandas Series.sample): each draw takes the element at
index pick state % length of the remaining pool and removes it. -/
def sampleWR {α : Type} (pick : Nat → Nat) : Nat → List α → Nat → List α
  | _, _, 0 => []
  | _, [], _ + 1 => []
  | g, a :: rest, k + 1 =>
    let i := pick g % (a :: rest).length
    (a :: rest).get ⟨i, Nat.mod_lt _ (Nat.succ_pos rest.length)⟩ ::
      sampleWR pick (g + 1) ((a :: rest).eraseIdx i) k

/-- The merged exclusion frame (lines 56-65): the full dataset concatenated
with the cdr3/epitope pairs of the working positives, deduplicated. -/
def fullMerge (df : List Row) (full : List SPair) : List SPair :=
  dedupKeyAux id [] (full ++ df.map rkey)

/-- The epitopes excluded for a cdr3 (line 377): cells of full_df rows whose
cdr3 column equals the given cdr3. -/
def exclEpitopes (cdr3 : String) (full_df : List SPair) : List (Option String) :=
  (full_df.filter (fun p => decide (p.1 = cdr3))).map (fun p => p.2)

/-- The candidate epitope series for a cdr3 (lines 393-395): the epitope
column of df restricted to cells not contained in the exclusion list
(pandas isin matches NaN cells against NaN values, hence Option equality). -/
def possibleEpitopes (cdr3 : String) (df : List Row) (full_df : List SPair) :
    List (Option String) :=
  (df.map (fun r => r.epitope)).filter
    (fun e => decide (¬ e ∈ exclEpitopes cdr3 full_df))

/-- sample_epitope_per_cdr3 (lines 325-411): sample one epitope for the cdr3
from the non-excluded epitope cells of df; if none remain, return the cdr3
paired with NaN. -/
def sample_epitope_per_cdr3 (pick : Nat → Nat) (cdr3 : String) (df : List Row)
    (full_df : List SPair) (seed : Nat) : SPair :=
  if h : possibleEpitopes cdr3 df full_df = [] then (cdr3, none)
  else
    (cdr3, (possibleEpitopes cdr3 df full_df).get
      ⟨pick seed % (possibleEpitopes cdr3 df full_df).length,
        Nat.mod_lt _ (List.length_pos.mpr h)⟩)

/-- The initial per-row sampling pass (lines 87-98): one
sample_epitope_per_cdr3 call per row of df, seeded by the enumeration index. -/
def firstPassAux (pick : Nat → Nat) (df : List Row) (full_df : List SPair) :
    Nat → List Row → List SPair
  | _, [] => []
  | i, r :: rest =>
    sample_epitope_per_cdr3 pick r.cdr3 df full_df i ::
      firstPassAux pick df full_df (i + 1) rest

/-- All pairs of the initial pass of the non-ratio mode. -/
def firstPassPairs (pick : Nat → Nat) (df : List Row) (full_df : List SPair) :
    List SPair :=
  firstPassAux pick df full_df 0 df

/-- Turning sampled pairs into labelled rows (shuffled_df with y = 0). -/
def rowsOf (ps : List SPair) : List Row :=
  ps.map (fun p => ⟨p.1, p.2, 0⟩)

/-- The cdr3 cells excluded for an epitope cell (line 287): full_df rows whose
epitope column == the cell (pandas ==, so a NaN cell excludes nothing). -/
def exclCdr3s (ep : Option String) (full_df : List SPair) : List String :=
  (full_df.filter (fun p => cellEq p.2 ep)).map (fun p => p.1)

/-- The unique candidate cdr3 pool for an epitope cell (lines 288-290). -/
def possibleCdr3s (ep : Option String) (df : List Row) (full_df : List SPair) :
    List String :=
  uniqueF ((df.filter (fun r => decide (¬ r.cdr3 ∈ exclCdr3s ep full_df))).map
    (fun r => r.cdr3))

/-- Loop body of sample_cdr3s_per_epitope over the unique epitope cells.
State: numpy global RNG state g, whether the local name logger has been bound
(it is assigned only inside the empty-pool branch, line 294), whether any
frame has been appended to negative_list, and the accumulated sampled pairs.
Returns none when the code raises: the clip warning (line 304) with logger
still unbound (UnboundLocalError), or pd.concat on an empty list (line 320). -/
def sample_cdr3s_go (pick : Nat → Nat) (df : List Row) (full_df : List SPair) :
    List (Option String) → Nat → Bool → Bool → List SPair → Option (List SPair)
  | [], _, _, appended, acc => if appended then some acc else none
  | ep :: rest, g, loggerBound, appended, acc =>
    let n := df.countP (fun r => cellEq r.epitope ep)
    let pool := possibleCdr3s ep df full_df
    if pool = [] then
      sample_cdr3s_go pick df full_df rest g true appended acc
    else if pool.length < n then
      if loggerBound then
        sample_cdr3s_go pick df full_df rest (g + pool.length) loggerBound true
          (acc ++ (sampleWR pick g pool pool.length).map (fun c => (c, ep)))
      else none
    else
      sample_cdr3s_go pick df full_df rest (g + n) loggerBound true
        (acc ++ (sampleWR pick g pool n).map (fun c => (c, ep)))

/-- sample_cdr3s_per_epitope (lines 232-322): for every unique epitope cell of
df, sample as many non-excluded unique cdr3s without replacement as the
epitope has rows, clipped to the pool size. -/
def sample_cdr3s_per_epitope (pick : Nat → Nat) (g : Nat) (df : List Row)
    (full_df : List SPair) : Option (List SPair) :=
  sample_cdr3s_go pick df full_df (uniqueF (df.map (fun r => r.epitope))) g
    false false []

/-- The sampled pairs of the initial pass of add_negatives: the per-epitope
sampler after np.random.seed(42) in ratio mode (lines 76-77), the per-row
pass otherwise (lines 87-98).  The ambient numpy state g is discarded by the
reseed and never consulted in the non-ratio mode. -/
def initialPairs (pick : Nat → Nat) (g : Nat) (df : List Row)
    (full_df : List SPair) (epitope_ratio : Bool) : Option (List SPair) :=
  if epitope_ratio then
    let _ := g
    sample_cdr3s_per_epitope pick 42 df full_df
  else some (firstPassPairs pick df full_df)

/-- State of the duplicate-retry while loop (lines 149-211).  The field prev
holds the shuffled_pairs Python variable from the previous round, which the
n = 50 branch re-reads without resampling. -/
structure LoopSt where
  done : Bool
  failed : Bool
  n : Nat
  df : List Row
  toDo : List Row
  prev : List SPair
deriving DecidableEq, Repr

/-- The pairs sampled by one loop iteration (lines 158-199), given the state
before incrementing n.  At n = 50 the branch only warns, so the stale
shuffled_pairs of the previous round are re-used; above 50 replacement cdr3s
are drawn from the positive rows (pandas raises when more rows are requested
than exist, modelled as none); otherwise the duplicate rows are resampled. -/
def stepPairs (pick : Nat → Nat) (full_df : List SPair) (s : LoopSt) :
    Option (List SPair) :=
  let m := s.n + 1
  if m = 50 then some s.prev
  else if 50 < m then
    let pos := (s.df.filter (fun r => decide (r.y = 1))).map (fun r => r.cdr3)
    if pos.length < s.toDo.length then none
    else some ((sampleWR pick (42 + m) pos s.toDo.length).map
      (fun c => sample_epitope_per_cdr3 pick c s.df full_df m))
  else some (s.toDo.map (fun r => sample_epitope_per_cdr3 pick r.cdr3 s.df full_df m))

/-- One iteration of the while loop (lines 150-211): stop when to_do_df is
empty; increment n and break past 100; otherwise sample, append with label 0,
recompute the keep-last duplicates, deduplicate and drop NaN epitopes. -/
def loopStep (pick : Nat → Nat) (full_df : List SPair) (s : LoopSt) : LoopSt :=
  if s.done || s.failed then s
  else if s.toDo = [] then { s with done := true }
  else if 100 < s.n + 1 then { s with done := true, n := s.n + 1 }
  else
    match stepPairs pick full_df s with
    | none => { s with failed := true, n := s.n + 1 }
    | some ps =>
      let df2 := s.df ++ rowsOf ps
      { done := false, failed := false, n := s.n + 1,
        df := dropnaEpitope (dedupFirst df2),
        toDo := dupKeepLast df2, prev := ps }

/-- Bounded function iteration. -/
def iterateF {α : Type} (f : α → α) : Nat → α → α
  | 0, x => x
  | k + 1, x => iterateF f k (f x)

/-- The loop state entered after the first merge (lines 123-149): to_do_df is
computed on the merged frame before deduplication, the working frame is then
deduplicated and NaN epitopes dropped, and shuffled_pairs holds the pairs of
the initial pass. -/
def loopInit (merged : List Row) (ps : List SPair) : LoopSt :=
  ⟨false, false, 0, dropnaEpitope (dedupFirst merged), dupKeepLast merged, ps⟩

/-- Running the retry loop from the merged frame and returning the final
working frame, subject to the final no-duplicates assert (lines 213-216).
101 iterations of loopStep are enough to reach a terminal state because n is
incremented every round and the loop breaks past 100. -/
def runLoopFrom (pick : Nat → Nat) (full_df : List SPair) (merged : List Row)
    (ps : List SPair) : Option (List Row) :=
  if (iterateF (loopStep pick full_df) 101 (loopInit merged ps)).failed then none
  else if hasDupKeys (iterateF (loopStep pick full_df) 101 (loopInit merged ps)).df
    then none
  else some (iterateF (loopStep pick full_df) 101 (loopInit merged ps)).df

/-- add_negatives (lines 10-229).  Returns df unchanged when only one unique
epitope cell is present; otherwise merges the exclusion frame, samples
negatives in the selected mode, appends them with label 0, checks the
duplicate-labels assert, and in the non-ratio mode deduplicates and drives
the retry loop.  g is the ambient numpy global RNG state at call time. -/
def add_negatives (pick : Nat → Nat) (g : Nat) (df : List Row)
    (full : List SPair) (epitope_ratio : Bool) : Option (List Row) :=
  if (uniqueF (df.map (fun r => r.epitope))).length = 1 then some df
  else
    match initialPairs pick g df (fullMerge df full) epitope_ratio with
    | none => none
    | some ps =>
      if labelsOk (df ++ rowsOf ps) then
        if epitope_ratio then
          if hasDupKeys (df ++ rowsOf ps) then none else some (df ++ rowsOf ps)
        else runLoopFrom pick (fullMerge df full) (df ++ rowsOf ps) ps
      else none

/-- Result of augment_negatives: the returned frame, a raised pandas error,
or a run that is still inside the while loop after the given fuel. -/
inductive AugRes where
  | out (df : List Row)
  | err
  | timeout
deriving DecidableEq, Repr

/-- The while loop of augment_negatives (lines 446-468), with explicit fuel
counting loop-condition checks.  Each round samples from the y column of the
positive rows (so the replacement rows carry no epitope cell at all) and
amount fresh background cdr3s, appends them with label 0, and recomputes the
duplicate count. -/
def augLoop (pick : Nat → Nat) (pool : List String) :
    Nat → Nat → Nat → List Row → AugRes
  | 0, _, _, _ => .timeout
  | fuel + 1, seed, amount, df =>
    if amount = 0 then .out df
    else
      let seed1 := seed + 1
      let posCount := (df.filter (fun r => decide (r.y = 1))).length
      if posCount < amount then .err
      else if pool.length < amount then .err
      else
        let cs := sampleWR pick seed1 pool amount
        let df2 := df ++ cs.map (fun c => Row.mk c none 0)
        augLoop pick pool fuel seed1 (dupKeepLast df2).length (dedupFirst df2)

/-- augment_negatives (lines 414-470).  The background pool argument is
modelled from the spec: it stands for the cdr3 column of the
ControlCDR3Source file after length filtering, a class whose source is not
part of this repository snapshot; the spec describes it as an external
background pool of source items with no target association.  The loop has no
iteration bound in the code, hence the explicit fuel. -/
def augment_negatives (pick : Nat → Nat) (pool : List String) (df : List Row)
    (amount : Nat) (fuel : Nat) : AugRes :=
  let posEps := (df.filter (fun r => decide (r.y = 1))).map (fun r => r.epitope)
  if posEps.length < amount then .err
  else if pool.length < amount then .err
  else
    let eps := sampleWR pick 42 posEps amount
    let cs := sampleWR pick 42 pool amount
    let df2 := df ++ (cs.zip eps).map (fun p => Row.mk p.1 p.2 0)
    augLoop pick pool fuel 42 (dupKeepLast df2).length (dedupFirst df2)

/-- Straight-line description of the ratio mode, written from the claim that
epitope_ratio=True performs a single sampling pass with no deduplication and
no retry: skip when a single epitope is present, run the per-epitope sampler
once, append with label 0, and apply only the two asserts. -/
def ratioSinglePass (pick : Nat → Nat) (df : List Row) (full : List SPair) :
    Option (List Row) :=
  if (uniqueF (df.map (fun r => r.epitope))).length = 1 then some df
  else
    match sample_cdr3s_per_epitope pick 42 df (fullMerge df full) with
    | none => none
    | some ps =>
      if labelsOk (df ++ rowsOf ps) then
        if hasDupKeys (df ++ rowsOf ps) then none else some (df ++ rowsOf ps)
      else none

/-! ## Basic lemmas about the list helpers -/

theorem mem_eraseIdx_imp {α : Type} : ∀ (l : List α) (i : Nat) (x : α),
    x ∈ l.eraseIdx i → x ∈ l := by
  intro l
  induction l with
  | nil => intro i x h; simp [List.eraseIdx] at h
  | cons a rest ih =>
    intro i x h
    cases i with
    | zero => exact List.mem_cons_of_mem a h
    | succ j =>
      simp only [List.eraseIdx] at h
      rcases List.mem_cons.mp h with h1 | h2
      · exact h1 ▸ List.mem_cons_self a rest
      · exact List.mem_cons_of_mem a (ih j x h2)

theorem mem_dedupKeyAux {α κ : Type} [DecidableEq κ] (f : α → κ) :
    ∀ (seen : List κ) (l : List α) (x : α), x ∈ dedupKeyAux f seen l → x ∈ l := by
  intro seen l
  induction l generalizing seen with
  | nil => intro x h; simp [dedupKeyAux] at h
  | cons a rest ih =>
    intro x h
    simp only [dedupKeyAux] at h
    by_cases hm : f a ∈ seen
    · simp only [if_pos hm] at h
      exact List.mem_cons_of_mem a (ih seen x h)
    · simp only [if_neg hm] at h
      rcases List.mem_cons.mp h with h1 | h2
      · exact h1 ▸ List.mem_cons_self a rest
      · exact List.mem_cons_of_mem a (ih (f a :: seen) x h2)

theorem keymem_dedupKeyAux {α κ : Type} [DecidableEq κ] (f : α → κ) :
    ∀ (seen : List κ) (l : List α) (k : κ), k ∈ l.map f → k ∉ seen →
      k ∈ (dedupKeyAux f seen l).map f := by
  intro seen l
  induction l generalizing seen with
  | nil => intro k h _; simp at h
  | cons a rest ih =>
    intro k h hns
    simp only [List.map_cons, List.mem_cons] at h
    simp only [dedupKeyAux]
    by_cases hm : f a ∈ seen
    · simp only [if_pos hm]
      rcases h with h1 | h2
      · exact absurd (h1 ▸ hm) hns
      · exact ih seen k h2 hns
    · simp only [if_neg hm, List.map_cons, List.mem_cons]
      rcases h with h1 | h2
      · exact Or.inl h1
      · by_cases hk : k = f a
        · exact Or.inl hk
        · exact Or.inr (ih (f a :: seen) k h2 (by
            intro hc
            rcases List.mem_cons.mp hc with h3 | h4
            · exact hk h3
            · exact hns h4))

theorem mem_dedupKeyAux_id {α : Type} [DecidableEq α] :
    ∀ (seen : List α) (l : List α) (x : α),
      x ∈ dedupKeyAux id seen l ↔ (x ∈ l ∧ x ∉ seen) := by
  intro seen l
  induction l generalizing seen with
  | nil => intro x; simp [dedupKeyAux]
  | cons a rest ih =>
    intro x
    simp only [dedupKeyAux, id]
    by_cases hm : a ∈ seen
    · simp only [if_pos hm, ih, List.mem_cons]
      constructor
      · rintro ⟨h1, h2⟩; exact ⟨Or.inr h1, h2⟩
      · rintro ⟨h1 | h1, h2⟩
        · exact absurd (h1 ▸ hm) h2
        · exact ⟨h1, h2⟩
    · simp only [if_neg hm, List.mem_cons, ih]
      by_cases hx : x = a
      · subst hx
        simp [hm]
      · simp [List.mem_cons, hx]

theorem mem_uniqueF {α : Type} [DecidableEq α] (l : List α) (x : α) :
    x ∈ uniqueF l ↔ x ∈ l := by
  unfold uniqueF
  rw [mem_dedupKeyAux_id]
  simp

theorem mem_sampleWR {α : Type} (pick : Nat → Nat) :
    ∀ (k g : Nat) (pool : List α) (x : α), x ∈ sampleWR pick g pool k → x ∈ pool := by
  intro k
  induction k with
  | zero => intro g pool x h; simp [sampleWR] at h
  | succ j ih =>
    intro g pool x h
    cases pool with
    | nil => simp [sampleWR] at h
    | cons a rest =>
      simp only [sampleWR] at h
      rcases List.mem_cons.mp h with h1 | h2
      · exact h1 ▸ List.get_mem _ _ _
      · exact mem_eraseIdx_imp _ _ _ (ih (g + 1) _ x h2)

theorem mem_dedupFirst (l : List Row) (r : Row) : r ∈ dedupFirst l → r ∈ l :=
  mem_dedupKeyAux rkey [] l r

theorem dropnaEpitope_subset (l : List Row) (r : Row) :
    r ∈ dropnaEpitope l → r ∈ l := by
  intro h; exact List.mem_of_mem_filter h

theorem mem_fullMerge (df : List Row) (full : List SPair) (p : SPair) :
    p ∈ fullMerge df full ↔ (p ∈ full ∨ p ∈ df.map rkey) := by
  unfold fullMerge
  rw [mem_dedupKeyAux_id]
  simp

/-! ## Lemmas about the per-cdr3 epitope sampler -/

theorem sample_epitope_fst (pick : Nat → Nat) (c : String) (df : List Row)
    (fdf : List SPair) (s : Nat) : (sample_epitope_per_cdr3 pick c df fdf s).1 = c := by
  unfold sample_epitope_per_cdr3
  split <;> rfl

theorem sample_epitope_snd_cases (pick : Nat → Nat) (c : String) (df : List Row)
    (fdf : List SPair) (s : Nat) :
    (sample_epitope_per_cdr3 pick c df fdf s).2 = none ∨
      (sample_epitope_per_cdr3 pick c df fdf s).2 ∈ possibleEpitopes c df fdf := by
  unfold sample_epitope_per_cdr3
  split
  · exact Or.inl rfl
  · exact Or.inr (List.get_mem _ _ _)

theorem sample_epitope_snd_of_ne (pick : Nat → Nat) (c : String) (df : List Row)
    (fdf : List SPair) (s : Nat) (h : possibleEpitopes c df fdf ≠ []) :
    (sample_epitope_per_cdr3 pick c df fdf s).2 ∈ possibleEpitopes c df fdf := by
  unfold sample_epitope_per_cdr3
  rw [dif_neg h]
  exact List.get_mem _ _ _

theorem possibleEpitopes_props (c : String) (df : List Row) (fdf : List SPair)
    (e : Option String) (h : e ∈ possibleEpitopes c df fdf) :
    e ∈ df.map (fun r => r.epitope) ∧ e ∉ exclEpitopes c fdf := by
  unfold possibleEpitopes at h
  rcases List.mem_filter.mp h with ⟨h1, h2⟩
  exact ⟨h1, of_decide_eq_true h2⟩

theorem not_mem_full_of_not_excl (c : String) (fdf : List SPair) (e : Option String)
    (he : e ∉ exclEpitopes c fdf) : (c, e) ∉ fdf := by
  intro hmem
  apply he
  unfold exclEpitopes
  exact List.mem_map.mpr ⟨(c, e), List.mem_filter.mpr ⟨hmem, by simp⟩, rfl⟩

theorem sample_epitope_pair_ok (pick : Nat → Nat) (c : String) (df : List Row)
    (fdf : List SPair) (s : Nat)
    (hs : ((sample_epitope_per_cdr3 pick c df fdf s).2).isSome = true) :
    sample_epitope_per_cdr3 pick c df fdf s ∉ fdf := by
  rcases sample_epitope_snd_cases pick c df fdf s with h | h
  · rw [h] at hs; simp at hs
  · have hne := (possibleEpitopes_props c df fdf _ h).2
    have hpair : sample_epitope_per_cdr3 pick c df fdf s =
        (c, (sample_epitope_per_cdr3 pick c df fdf s).2) :=
      Prod.ext_iff.mpr ⟨sample_epitope_fst pick c df fdf s, rfl⟩
    intro hmem
    exact not_mem_full_of_not_excl c fdf _ hne (hpair ▸ hmem)

/-! ## Invariants of the working frame -/

/-- Every row with a nonzero label carries a key recorded in the merged
exclusion frame. -/
def rowsOkPos (fdf : List SPair) (l : List Row) : Prop :=
  ∀ r ∈ l, r.y ≠ 0 → rkey r ∈ fdf

/-- Every label-0 row with a present epitope cell carries a key that is not a
positive pair of the merged exclusion frame. -/
def rowsOkNeg (fdf : List SPair) (l : List Row) : Prop :=
  ∀ r ∈ l, r.y = 0 → (r.epitope).isSome = true → rkey r ∉ fdf

/-- Every row has a present epitope cell. -/
def allSomeEp (l : List Row) : Prop :=
  ∀ r ∈ l, (r.epitope).isSome = true

/-- Sampled pairs with a present epitope cell avoid the exclusion frame. -/
def pairsOk (fdf : List SPair) (ps : List SPair) : Prop :=
  ∀ p ∈ ps, (p.2).isSome = true → p ∉ fdf

/-- Invariant carried by the retry-loop state. -/
def LoopInv (fdf : List SPair) (s : LoopSt) : Prop :=
  rowsOkPos fdf s.df ∧ rowsOkNeg fdf s.df ∧ allSomeEp s.df ∧ pairsOk fdf s.prev

theorem mem_rowsOf (ps : List SPair) (r : Row) :
    r ∈ rowsOf ps ↔ ∃ p ∈ ps, r = ⟨p.1, p.2, 0⟩ := by
  unfold rowsOf
  rw [List.mem_map]
  constructor
  · rintro ⟨p, hp, rfl⟩; exact ⟨p, hp, rfl⟩
  · rintro ⟨p, hp, rfl⟩; exact ⟨p, hp, rfl⟩

theorem rowsOkPos_append (fdf : List SPair) (l : List Row) (ps : List SPair)
    (h : rowsOkPos fdf l) : rowsOkPos fdf (l ++ rowsOf ps) := by
  intro r hr hy
  rcases List.mem_append.mp hr with h1 | h1
  · exact h r h1 hy
  · rcases (mem_rowsOf ps r).mp h1 with ⟨p, _, rfl⟩
    exact absurd rfl hy

theorem rowsOkNeg_append (fdf : List SPair) (l : List Row) (ps : List SPair)
    (h : rowsOkNeg fdf l) (hps : pairsOk fdf ps) :
    rowsOkNeg fdf (l ++ rowsOf ps) := by
  intro r hr hy hsome
  rcases List.mem_append.mp hr with h1 | h1
  · exact h r h1 hy hsome
  · rcases (mem_rowsOf ps r).mp h1 with ⟨p, hp, rfl⟩
    have : rkey (⟨p.1, p.2, 0⟩ : Row) = p := rfl
    rw [this]
    exact hps p hp hsome

theorem rowsOkPos_of_subset (fdf : List SPair) (l l2 : List Row)
    (hsub : ∀ r ∈ l2, r ∈ l) (h : rowsOkPos fdf l) : rowsOkPos fdf l2 :=
  fun r hr hy => h r (hsub r hr) hy

theorem rowsOkNeg_of_subset (fdf : List SPair) (l l2 : List Row)
    (hsub : ∀ r ∈ l2, r ∈ l) (h : rowsOkNeg fdf l) : rowsOkNeg fdf l2 :=
  fun r hr hy hs => h r (hsub r hr) hy hs

theorem allSomeEp_dropna (l : List Row) : allSomeEp (dropnaEpitope l) := by
  intro r hr
  exact (List.mem_filter.mp hr).2

theorem stepPairs_pairsOk (pick : Nat → Nat) (fdf : List SPair) (s : LoopSt)
    (ps : List SPair) (hprev : pairsOk fdf s.prev)
    (h : stepPairs pick fdf s = some ps) : pairsOk fdf ps := by
  unfold stepPairs at h
  by_cases h50 : s.n + 1 = 50
  · rw [if_pos h50] at h
    exact (Option.some.injEq _ _ ▸ h : s.prev = ps) ▸ hprev
  · rw [if_neg h50] at h
    by_cases hgt : 50 < s.n + 1
    · rw [if_pos hgt] at h
      by_cases hlen : ((s.df.filter (fun r => decide (r.y = 1))).map
          (fun r => r.cdr3)).length < s.toDo.length
      · simp only [if_pos hlen] at h
        exact absurd h (by simp)
      · simp only [if_neg hlen, Option.some.injEq] at h
        intro p hp hsome
        rw [← h] at hp
        rcases List.mem_map.mp hp with ⟨c, _, rfl⟩
        exact sample_epitope_pair_ok pick c s.df fdf (s.n + 1) hsome
    · rw [if_neg hgt] at h
      simp only [Option.some.injEq] at h
      intro p hp hsome
      rw [← h] at hp
      rcases List.mem_map.mp hp with ⟨r, _, rfl⟩
      exact sample_epitope_pair_ok pick r.cdr3 s.df fdf (s.n + 1) hsome

/-! ## Preservation of the invariants by the retry loop -/

theorem loopStep_inv (pick : Nat → Nat) (fdf : List SPair) (s : LoopSt)
    (h : LoopInv fdf s) : LoopInv fdf (loopStep pick fdf s) := by
  unfold loopStep
  by_cases h1 : (s.done || s.failed) = true
  · rw [if_pos h1]; exact h
  · rw [if_neg h1]
    by_cases h2 : s.toDo = []
    · rw [if_pos h2]; exact h
    · rw [if_neg h2]
      by_cases h3 : 100 < s.n + 1
      · rw [if_pos h3]; exact h
      · rw [if_neg h3]
        cases hps : stepPairs pick fdf s with
        | none => exact h
        | some ps =>
          rcases h with ⟨hp, hn, _, hpr⟩
          have hpsok := stepPairs_pairsOk pick fdf s ps hpr hps
          have hsub : ∀ r ∈ dropnaEpitope (dedupFirst (s.df ++ rowsOf ps)),
              r ∈ s.df ++ rowsOf ps :=
            fun r hr => mem_dedupFirst _ r (dropnaEpitope_subset _ r hr)
          refine ⟨?_, ?_, ?_, hpsok⟩
          · exact rowsOkPos_of_subset fdf _ _ hsub (rowsOkPos_append fdf s.df ps hp)
          · exact rowsOkNeg_of_subset fdf _ _ hsub
              (rowsOkNeg_append fdf s.df ps hn hpsok)
          · exact allSomeEp_dropna _

/-- Presence of a key in the frame. -/
def keyIn (K : SPair) (l : List Row) : Prop := K ∈ l.map rkey

theorem keyIn_append_left (K : SPair) (l l2 : List Row) (h : keyIn K l) :
    keyIn K (l ++ l2) := by
  unfold keyIn at *
  rw [List.map_append]
  exact List.mem_append.mpr (Or.inl h)

theorem keyIn_dedupFirst (K : SPair) (l : List Row) (h : keyIn K l) :
    keyIn K (dedupFirst l) :=
  keymem_dedupKeyAux rkey [] l K h (by simp)

theorem keyIn_dropna (K : SPair) (l : List Row) (hK : (K.2).isSome = true)
    (h : keyIn K l) : keyIn K (dropnaEpitope l) := by
  rcases List.mem_map.mp h with ⟨r, hr, hkey⟩
  have hre : (r.epitope).isSome = true := by
    have : r.epitope = K.2 := by rw [← hkey]; rfl
    rw [this]; exact hK
  exact List.mem_map.mpr ⟨r, List.mem_filter.mpr ⟨hr, hre⟩, hkey⟩

theorem loopStep_keyIn (pick : Nat → Nat) (fdf : List SPair) (s : LoopSt)
    (K : SPair) (hK : (K.2).isSome = true) (h : keyIn K s.df) :
    keyIn K (loopStep pick fdf s).df := by
  unfold loopStep
  by_cases h1 : (s.done || s.failed) = true
  · rw [if_pos h1]; exact h
  · rw [if_neg h1]
    by_cases h2 : s.toDo = []
    · rw [if_pos h2]; exact h
    · rw [if_neg h2]
      by_cases h3 : 100 < s.n + 1
      · rw [if_pos h3]; exact h
      · rw [if_neg h3]
        cases hps : stepPairs pick fdf s with
        | none => exact h
        | some ps =>
          exact keyIn_dropna K _ hK
            (keyIn_dedupFirst K _ (keyIn_append_left K s.df (rowsOf ps) h))

theorem iterateF_pres {α : Type} (f : α → α) (P : α → Prop)
    (hf : ∀ x, P x → P (f x)) : ∀ (k : Nat) (x : α), P x → P (iterateF f k x) := by
  intro k
  induction k with
  | zero => intro x hx; exact hx
  | succ j ih => intro x hx; exact ih (f x) (hf x hx)

/-! ## Termination of the retry loop within the hard bound -/

theorem loopStep_fix (pick : Nat → Nat) (fdf : List SPair) (s : LoopSt)
    (h : (s.done || s.failed) = true) : loopStep pick fdf s = s := by
  unfold loopStep
  rw [if_pos h]

theorem iterateF_fix (pick : Nat → Nat) (fdf : List SPair) :
    ∀ (k : Nat) (s : LoopSt), (s.done || s.failed) = true →
      iterateF (loopStep pick fdf) k s = s := by
  intro k
  induction k with
  | zero => intro s _; rfl
  | succ j ih =>
    intro s h
    show iterateF (loopStep pick fdf) j (loopStep pick fdf s) = s
    rw [loopStep_fix pick fdf s h]
    exact ih s h

theorem loopStep_progress (pick : Nat → Nat) (fdf : List SPair) (s : LoopSt)
    (h1 : ¬ (s.done || s.failed) = true) :
    ((loopStep pick fdf s).done || (loopStep pick fdf s).failed) = true ∨
      ((loopStep pick fdf s).n = s.n + 1 ∧ s.n + 1 ≤ 100) := by
  unfold loopStep
  rw [if_neg h1]
  by_cases h2 : s.toDo = []
  · rw [if_pos h2]; exact Or.inl (by simp)
  · rw [if_neg h2]
    by_cases h3 : 100 < s.n + 1
    · rw [if_pos h3]; exact Or.inl (by simp)
    · rw [if_neg h3]
      cases stepPairs pick fdf s with
      | none => exact Or.inl (by simp)
      | some ps => exact Or.inr ⟨rfl, by omega⟩

theorem iterateF_terminal (pick : Nat → Nat) (fdf : List SPair) :
    ∀ (k : Nat) (s : LoopSt), 100 - s.n < k →
      ((iterateF (loopStep pick fdf) k s).done ||
        (iterateF (loopStep pick fdf) k s).failed) = true := by
  intro k
  induction k with
  | zero => intro s h; omega
  | succ j ih =>
    intro s h
    by_cases h1 : (s.done || s.failed) = true
    · rw [iterateF_fix pick fdf (j + 1) s h1]; exact h1
    · rcases loopStep_progress pick fdf s h1 with h2 | ⟨h2, h3⟩
      · show ((iterateF (loopStep pick fdf) j (loopStep pick fdf s)).done ||
          (iterateF (loopStep pick fdf) j (loopStep pick fdf s)).failed) = true
        rw [iterateF_fix pick fdf j _ h2]
        exact h2
      · show ((iterateF (loopStep pick fdf) j (loopStep pick fdf s)).done ||
          (iterateF (loopStep pick fdf) j (loopStep pick fdf s)).failed) = true
        exact ih (loopStep pick fdf s) (by omega)

theorem iterateF_add {α : Type} (f : α → α) :
    ∀ (m k : Nat) (x : α), iterateF f (m + k) x = iterateF f m (iterateF f k x) := by
  intro m k
  induction k generalizing m with
  | zero => intro x; rfl
  | succ j ih =>
    intro x
    show iterateF f (m + j + 1) x = iterateF f m (iterateF f j (f x))
    have : m + j + 1 = (m + j) + 1 := rfl
    rw [this]
    show iterateF f (m + j) (f x) = iterateF f m (iterateF f j (f x))
    exact ih m (f x)

/-! ## Inversion of add_negatives on a successful run -/

theorem runLoopFrom_some (pick : Nat → Nat) (fdf : List SPair) (merged : List Row)
    (ps : List SPair) (out : List Row)
    (h : runLoopFrom pick fdf merged ps = some out) :
    out = (iterateF (loopStep pick fdf) 101 (loopInit merged ps)).df ∧
      hasDupKeys out = false := by
  unfold runLoopFrom at h
  by_cases h1 : (iterateF (loopStep pick fdf) 101 (loopInit merged ps)).failed = true
  · rw [if_pos h1] at h; exact absurd h (by simp)
  · rw [if_neg h1] at h
    by_cases h2 : hasDupKeys (iterateF (loopStep pick fdf) 101 (loopInit merged ps)).df
      = true
    · rw [if_pos h2] at h; exact absurd h (by simp)
    · rw [if_neg h2] at h
      have := Option.some.inj h
      constructor
      · exact this.symm
      · rw [this] at h2
        exact eq_false_of_ne_true h2

theorem add_negatives_some_cases (pick : Nat → Nat) (g : Nat) (df : List Row)
    (full : List SPair) (epitope_ratio : Bool) (out : List Row)
    (h : add_negatives pick g df full epitope_ratio = some out) :
    ((uniqueF (df.map (fun r => r.epitope))).length = 1 ∧ out = df) ∨
      (∃ ps, (uniqueF (df.map (fun r => r.epitope))).length ≠ 1 ∧
        initialPairs pick g df (fullMerge df full) epitope_ratio = some ps ∧
        labelsOk (df ++ rowsOf ps) = true ∧
        ((epitope_ratio = true ∧ hasDupKeys (df ++ rowsOf ps) = false ∧
            out = df ++ rowsOf ps) ∨
          (epitope_ratio = false ∧
            runLoopFrom pick (fullMerge df full) (df ++ rowsOf ps) ps = some out))) := by
  unfold add_negatives at h
  by_cases h1 : (uniqueF (df.map (fun r => r.epitope))).length = 1
  · rw [if_pos h1] at h
    exact Or.inl ⟨h1, (Option.some.inj h).symm⟩
  · rw [if_neg h1] at h
    cases hps : initialPairs pick g df (fullMerge df full) epitope_ratio with
    | none => rw [hps] at h; exact absurd h (by simp)
    | some ps =>
      rw [hps] at h
      simp only [] at h
      by_cases h2 : labelsOk (df ++ rowsOf ps) = true
      · rw [if_pos h2] at h
        cases epitope_ratio with
        | true =>
          simp only [if_pos] at h
          by_cases h3 : hasDupKeys (df ++ rowsOf ps) = true
          · rw [if_pos h3] at h; exact absurd h (by simp)
          · rw [if_neg h3] at h
            exact Or.inr ⟨ps, h1, rfl, h2,
              Or.inl ⟨rfl, eq_false_of_ne_true h3, (Option.some.inj h).symm⟩⟩
        | false =>
          simp only [Bool.false_eq_true, if_false] at h
          exact Or.inr ⟨ps, h1, rfl, h2, Or.inr ⟨rfl, h⟩⟩
      · rw [if_neg h2] at h
        exact absurd h (by simp)

/-- C3 (amended, add_negatives part): the retry loop of add_negatives reaches a
terminal state within 101 applications of its step function on every input:
iterating the loop step any number of times beyond 101 changes nothing,
because the iteration counter increases every round and the loop breaks as
soon as it exceeds the hard threshold of 100. -/
theorem add_negatives_retry_bounded (pick : Nat → Nat) (fdf : List SPair)
    (s : LoopSt) (k : Nat) :
    iterateF (loopStep pick fdf) (101 + k) s = iterateF (loopStep pick fdf) 101 s := by
  have hterm := iterateF_terminal pick fdf 101 s (by omega)
  rw [Nat.add_comm, iterateF_add (loopStep pick fdf) k 101 s]
  exact iterateF_fix pick fdf k _ hterm

/-! ## The initial pass and the loop entry state -/

theorem firstPassAux_length (pick : Nat → Nat) (df : List Row) (fdf : List SPair) :
    ∀ (l : List Row) (i : Nat), (firstPassAux pick df fdf i l).length = l.length := by
  intro l
  induction l with
  | nil => intro i; rfl
  | cons r rest ih =>
    intro i
    show (firstPassAux pick df fdf (i + 1) rest).length + 1 = rest.length + 1
    rw [ih (i + 1)]

theorem firstPassPairs_length (pick : Nat → Nat) (df : List Row) (fdf : List SPair) :
    (firstPassPairs pick df fdf).length = df.length :=
  firstPassAux_length pick df fdf df 0

theorem firstPassAux_mem_shape (pick : Nat → Nat) (df : List Row) (fdf : List SPair) :
    ∀ (l : List Row) (i : Nat) (p : SPair), p ∈ firstPassAux pick df fdf i l →
      ∃ c s, p = sample_epitope_per_cdr3 pick c df fdf s := by
  intro l
  induction l with
  | nil => intro i p h; simp [firstPassAux] at h
  | cons r rest ih =>
    intro i p h
    rcases List.mem_cons.mp h with h1 | h2
    · exact ⟨r.cdr3, i, h1⟩
    · exact ih (i + 1) p h2

theorem firstPassAux_exists (pick : Nat → Nat) (df : List Row) (fdf : List SPair) :
    ∀ (l : List Row) (i : Nat) (r : Row), r ∈ l →
      ∃ s, sample_epitope_per_cdr3 pick r.cdr3 df fdf s ∈ firstPassAux pick df fdf i l := by
  intro l
  induction l with
  | nil => intro i r h; simp at h
  | cons r0 rest ih =>
    intro i r h
    rcases List.mem_cons.mp h with h1 | h2
    · exact ⟨i, h1 ▸ List.mem_cons_self _ _⟩
    · rcases ih (i + 1) r h2 with ⟨s, hs⟩
      exact ⟨s, List.mem_cons_of_mem _ hs⟩

theorem firstPassPairs_pairsOk (pick : Nat → Nat) (df : List Row) (fdf : List SPair) :
    pairsOk fdf (firstPassPairs pick df fdf) := by
  intro p hp hsome
  rcases firstPassAux_mem_shape pick df fdf df 0 p hp with ⟨c, s, rfl⟩
  exact sample_epitope_pair_ok pick c df fdf s hsome

theorem possibleEpitopes_isSome (c : String) (df : List Row) (fdf : List SPair)
    (hsome : ∀ r ∈ df, (r.epitope).isSome = true) (e : Option String)
    (he : e ∈ possibleEpitopes c df fdf) : e.isSome = true := by
  rcases List.mem_map.mp (possibleEpitopes_props c df fdf e he).1 with ⟨r, hr, rfl⟩
  exact hsome r hr

theorem loopInit_LoopInv (df : List Row) (full : List SPair) (ps : List SPair)
    (hpos : ∀ r ∈ df, r.y = 1) (hps : pairsOk (fullMerge df full) ps) :
    LoopInv (fullMerge df full) (loopInit (df ++ rowsOf ps) ps) := by
  have hsub : ∀ r ∈ dropnaEpitope (dedupFirst (df ++ rowsOf ps)), r ∈ df ++ rowsOf ps :=
    fun r hr => mem_dedupFirst _ r (dropnaEpitope_subset _ r hr)
  refine ⟨?_, ?_, ?_, hps⟩
  · refine rowsOkPos_of_subset _ _ _ hsub (rowsOkPos_append _ df ps ?_)
    intro r hr _
    exact (mem_fullMerge df full (rkey r)).mpr (Or.inr (List.mem_map.mpr ⟨r, hr, rfl⟩))
  · refine rowsOkNeg_of_subset _ _ _ hsub (rowsOkNeg_append _ df ps ?_ hps)
    intro r hr hy _
    rw [hpos r hr] at hy
    exact absurd hy one_ne_zero
  · exact allSomeEp_dropna _

theorem keyIn_rowsOf (ps : List SPair) (K : SPair) (h : K ∈ ps) :
    keyIn K (rowsOf ps) := by
  refine List.mem_map.mpr ⟨⟨K.1, K.2, 0⟩, List.mem_map.mpr ⟨K, h, rfl⟩, ?_⟩
  show (K.1, K.2) = K
  exact Prod.mk.eta

theorem keyIn_append_right (K : SPair) (l l2 : List Row) (h : keyIn K l2) :
    keyIn K (l ++ l2) := by
  unfold keyIn at *
  rw [List.map_append]
  exact List.mem_append.mpr (Or.inr h)

theorem keyIn_extract (fdf : List SPair) (K : SPair) (out : List Row)
    (hinv : rowsOkPos fdf out) (hKn : K ∉ fdf) (hk : keyIn K out) :
    ∃ r ∈ out, r.cdr3 = K.1 ∧ r.y = 0 := by
  rcases List.mem_map.mp hk with ⟨r, hr, hkey⟩
  refine ⟨r, hr, ?_, ?_⟩
  · rw [← hkey]; rfl
  · by_contra hy
    exact hKn (hkey ▸ hinv r hr hy)

theorem possibleEpitopes_nil_of_single (df : List Row) (full : List SPair)
    (c : String) (h1 : (uniqueF (df.map (fun r => r.epitope))).length = 1)
    (hc : c ∈ df.map (fun r => r.cdr3)) :
    possibleEpitopes c df (fullMerge df full) = [] := by
  rcases List.length_eq_one.mp h1 with ⟨E, hE⟩
  have hall : ∀ e ∈ df.map (fun r => r.epitope), e = E := by
    intro e he
    have : e ∈ uniqueF (df.map (fun r => r.epitope)) := (mem_uniqueF _ e).mpr he
    rw [hE] at this
    exact List.mem_singleton.mp this
  rcases List.mem_map.mp hc with ⟨r0, hr0, rfl⟩
  have hr0E : r0.epitope = E := hall r0.epitope (List.mem_map.mpr ⟨r0, hr0, rfl⟩)
  have hEfull : (r0.cdr3, E) ∈ fullMerge df full := by
    refine (mem_fullMerge df full _).mpr (Or.inr (List.mem_map.mpr ⟨r0, hr0, ?_⟩))
    rw [rkey, hr0E]
  have hEexcl : E ∈ exclEpitopes r0.cdr3 (fullMerge df full) := by
    unfold exclEpitopes
    exact List.mem_map.mpr ⟨(r0.cdr3, E), List.mem_filter.mpr ⟨hEfull, by simp⟩, rfl⟩
  unfold possibleEpitopes
  rw [List.filter_eq_nil_iff]
  intro e he
  rw [hall e he]
  simp [hEexcl]

/-! ## Soundness of the per-epitope sampler -/

theorem cellEq_self_of_isSome (ep : Option String) (h : ep.isSome = true) :
    cellEq ep ep = true := by
  rcases Option.isSome_iff_exists.mp h with ⟨e, rfl⟩
  simp [cellEq]

theorem ratio_batch_ok (pick : Nat → Nat) (df : List Row) (fdf : List SPair)
    (ep : Option String) (g n : Nat) (hep : ep.isSome = true) :
    ∀ p ∈ (sampleWR pick g (possibleCdr3s ep df fdf) n).map
        (fun c => ((c, ep) : SPair)), (p.2).isSome = true ∧ p ∉ fdf := by
  intro p hp
  rcases List.mem_map.mp hp with ⟨c, hcmem, rfl⟩
  have hc : c ∈ possibleCdr3s ep df fdf := mem_sampleWR pick n g _ c hcmem
  refine ⟨hep, ?_⟩
  intro hmem
  have hcex : c ∈ exclCdr3s ep fdf := by
    unfold exclCdr3s
    exact List.mem_map.mpr
      ⟨(c, ep), List.mem_filter.mpr ⟨hmem, cellEq_self_of_isSome ep hep⟩, rfl⟩
  have hc2 := (mem_uniqueF _ c).mp hc
  rcases List.mem_map.mp hc2 with ⟨r, hrf, hrc⟩
  have hpred := (List.mem_filter.mp hrf).2
  exact (of_decide_eq_true hpred) (hrc ▸ hcex)

theorem sample_cdr3s_go_sound (pick : Nat → Nat) (df : List Row) (fdf : List SPair) :
    ∀ (eps : List (Option String)) (g : Nat) (lb app : Bool) (acc ps : List SPair),
      (∀ ep ∈ eps, ep.isSome = true) →
      (∀ p ∈ acc, (p.2).isSome = true ∧ p ∉ fdf) →
      sample_cdr3s_go pick df fdf eps g lb app acc = some ps →
      ∀ p ∈ ps, (p.2).isSome = true ∧ p ∉ fdf := by
  intro eps
  induction eps with
  | nil =>
    intro g lb app acc ps _ hacc h
    unfold sample_cdr3s_go at h
    by_cases happ : app = true
    · rw [if_pos happ] at h
      exact (Option.some.inj h) ▸ hacc
    · rw [if_neg happ] at h
      exact absurd h (by simp)
  | cons ep rest ih =>
    intro g lb app acc ps heps hacc h
    have hep : ep.isSome = true := heps ep (List.mem_cons_self _ _)
    have hrest : ∀ e ∈ rest, e.isSome = true :=
      fun e he => heps e (List.mem_cons_of_mem _ he)
    unfold sample_cdr3s_go at h
    by_cases h1 : possibleCdr3s ep df fdf = []
    · rw [if_pos h1] at h
      exact ih g true app acc ps hrest hacc h
    · rw [if_neg h1] at h
      by_cases h2 : (possibleCdr3s ep df fdf).length <
          df.countP (fun r => cellEq r.epitope ep)
      · rw [if_pos h2] at h
        by_cases h3 : lb = true
        · rw [if_pos h3] at h
          refine ih _ _ _ _ _ hrest ?_ h
          intro p hp
          rcases List.mem_append.mp hp with hl | hr
          · exact hacc p hl
          · exact ratio_batch_ok pick df fdf ep g _ hep p hr
        · rw [if_neg h3] at h
          exact absurd h (by simp)
      · rw [if_neg h2] at h
        refine ih _ _ _ _ _ hrest ?_ h
        intro p hp
        rcases List.mem_append.mp hp with hl | hr
        · exact hacc p hl
        · exact ratio_batch_ok pick df fdf ep g _ hep p hr

theorem sample_cdr3s_sound (pick : Nat → Nat) (g0 : Nat) (df : List Row)
    (fdf : List SPair) (ps : List SPair)
    (hsome : ∀ r ∈ df, (r.epitope).isSome = true)
    (h : sample_cdr3s_per_epitope pick g0 df fdf = some ps) :
    ∀ p ∈ ps, (p.2).isSome = true ∧ p ∉ fdf := by
  refine sample_cdr3s_go_sound pick df fdf _ g0 false false [] ps ?_ (by simp) h
  intro ep hepm
  rcases List.mem_map.mp ((mem_uniqueF _ ep).mp hepm) with ⟨r, hr, rfl⟩
  exact hsome r hr

/-! ## Main theorems for the externally visible claims -/

/-- C1: in both modes, every label-0 row of the table returned by
add_negatives carries a (cdr3, epitope) combination that occurs neither as a
pair of the full reference corpus nor as a pair of the positive input corpus,
provided the inputs respect the documented contract (positives only, no NaN
epitopes). -/
theorem no_false_negatives (pick : Nat → Nat) (g : Nat) (df : List Row)
    (full : List SPair) (mode : Bool) (out : List Row)
    (hpos : ∀ r ∈ df, r.y = 1)
    (hsome : ∀ r ∈ df, (r.epitope).isSome = true)
    (h : add_negatives pick g df full mode = some out) :
    ∀ r ∈ out, r.y = 0 → rkey r ∉ full ∧ ¬ ∃ rr ∈ df, rkey rr = rkey r := by
  intro r hr hy
  suffices hnf : rkey r ∉ fullMerge df full by
    constructor
    · intro hc
      exact hnf ((mem_fullMerge df full _).mpr (Or.inl hc))
    · rintro ⟨rr, hrr, hk⟩
      exact hnf ((mem_fullMerge df full _).mpr
        (Or.inr (List.mem_map.mpr ⟨rr, hrr, hk⟩)))
  rcases add_negatives_some_cases pick g df full mode out h with
    ⟨h1, rfl⟩ | ⟨ps, h1, hps, hlab, hrest⟩
  · rw [hpos r hr] at hy
    exact absurd hy one_ne_zero
  · rcases hrest with ⟨hmode, hnod, rfl⟩ | ⟨hmode, hrun⟩
    · subst hmode
      have hps2 : sample_cdr3s_per_epitope pick 42 df (fullMerge df full) = some ps := by
        unfold initialPairs at hps
        rw [if_pos rfl] at hps
        exact hps
      have hsound := sample_cdr3s_sound pick 42 df (fullMerge df full) ps hsome hps2
      rcases List.mem_append.mp hr with hdf | hrow
      · rw [hpos r hdf] at hy
        exact absurd hy one_ne_zero
      · rcases (mem_rowsOf ps r).mp hrow with ⟨p, hp, rfl⟩
        have : rkey (⟨p.1, p.2, 0⟩ : Row) = p := by
          show (p.1, p.2) = p
          exact Prod.mk.eta
        rw [this]
        exact (hsound p hp).2
    · subst hmode
      have hps2 : ps = firstPassPairs pick df (fullMerge df full) := by
        unfold initialPairs at hps
        simp only [Bool.false_eq_true, if_false, Option.some.injEq] at hps
        exact hps.symm
      subst hps2
      have hinv0 := loopInit_LoopInv df full _ hpos
        (firstPassPairs_pairsOk pick df (fullMerge df full))
      have hinv := iterateF_pres (loopStep pick (fullMerge df full))
        (LoopInv (fullMerge df full))
        (loopStep_inv pick (fullMerge df full)) 101 _ hinv0
      rcases runLoopFrom_some pick (fullMerge df full) _ _ out hrun with ⟨hout, _⟩
      rcases hinv with ⟨_, hneg, hall, _⟩
      rw [hout] at hr
      exact hneg r hr hy (hall r hr)

/-- C4 (amended): in per-source mode the initial pass makes exactly one
sampling attempt per row of the positive corpus (so a CDR3 occurring in
several positive rows is attempted once per occurrence, and one pass yields
at most as many negatives as there are rows), and every satisfiable CDR3 of
the positive corpus has at least one label-0 row in the final table. -/
theorem per_source_row_attempts_and_coverage (pick : Nat → Nat) (g : Nat)
    (df : List Row) (full : List SPair) (out : List Row)
    (hpos : ∀ r ∈ df, r.y = 1)
    (hsome : ∀ r ∈ df, (r.epitope).isSome = true)
    (h : add_negatives pick g df full false = some out) :
    (firstPassPairs pick df (fullMerge df full)).length = df.length ∧
      ∀ c, c ∈ df.map (fun r => r.cdr3) →
        possibleEpitopes c df (fullMerge df full) ≠ [] →
        ∃ r ∈ out, r.cdr3 = c ∧ r.y = 0 := by
  refine ⟨firstPassPairs_length pick df (fullMerge df full), ?_⟩
  intro c hc hsat
  rcases add_negatives_some_cases pick g df full false out h with
    ⟨h1, _⟩ | ⟨ps, h1, hps, hlab, hrest⟩
  · exact absurd (possibleEpitopes_nil_of_single df full c h1 hc) hsat
  · rcases hrest with ⟨hcontra, _⟩ | ⟨_, hrun⟩
    · exact absurd hcontra (by simp)
    · have hps2 : ps = firstPassPairs pick df (fullMerge df full) := by
        unfold initialPairs at hps
        simp only [Bool.false_eq_true, if_false, Option.some.injEq] at hps
        exact hps.symm
      subst hps2
      rcases List.mem_map.mp hc with ⟨r0, hr0, rfl⟩
      rcases firstPassAux_exists pick df (fullMerge df full) df 0 r0 hr0 with ⟨sd, hsd⟩
      have hKsome : ((sample_epitope_per_cdr3 pick r0.cdr3 df (fullMerge df full) sd).2).isSome
          = true :=
        possibleEpitopes_isSome r0.cdr3 df (fullMerge df full) hsome _
          (sample_epitope_snd_of_ne pick r0.cdr3 df (fullMerge df full) sd hsat)
      have hKn : sample_epitope_per_cdr3 pick r0.cdr3 df (fullMerge df full) sd ∉
          fullMerge df full :=
        sample_epitope_pair_ok pick r0.cdr3 df (fullMerge df full) sd hKsome
      have hinv0 := loopInit_LoopInv df full _ hpos
        (firstPassPairs_pairsOk pick df (fullMerge df full))
      have hkey0 : keyIn (sample_epitope_per_cdr3 pick r0.cdr3 df (fullMerge df full) sd)
          (loopInit (df ++ rowsOf (firstPassPairs pick df (fullMerge df full)))
            (firstPassPairs pick df (fullMerge df full))).df := by
        show keyIn _ (dropnaEpitope (dedupFirst
          (df ++ rowsOf (firstPassPairs pick df (fullMerge df full)))))
        exact keyIn_dropna _ _ hKsome (keyIn_dedupFirst _ _
          (keyIn_append_right _ df _ (keyIn_rowsOf _ _ hsd)))
      have hfin := iterateF_pres (loopStep pick (fullMerge df full))
        (fun s => LoopInv (fullMerge df full) s ∧
          keyIn (sample_epitope_per_cdr3 pick r0.cdr3 df (fullMerge df full) sd) s.df)
        (fun s hs => ⟨loopStep_inv pick (fullMerge df full) s hs.1,
          loopStep_keyIn pick (fullMerge df full) s _ hKsome hs.2⟩)
        101 _ ⟨hinv0, hkey0⟩
      rcases runLoopFrom_some pick (fullMerge df full) _ _ out hrun with ⟨hout, _⟩
      have hres := keyIn_extract (fullMerge df full) _ _ hfin.1.1 hKn hfin.2
      rw [sample_epitope_fst pick r0.cdr3 df (fullMerge df full) sd] at hres
      rw [hout]
      exact hres

/-! ## Concrete inputs used by the witnesses and counterexamples -/

/-- Index-choice function that always takes the first element. -/
def pickZ : Nat → Nat := fun _ => 0

/-- Index-choice function used for the duplicate-positive run. -/
def pickC5 : Nat → Nat := fun s => if s = 1 then 1 else if s = 3 then 2 else 0

/-- Index-choice function used for the soft-threshold run: the retry draw at
seed 50 differs from the draws at all earlier seeds. -/
def pickC6 : Nat → Nat := fun s => if s = 50 then 1 else 0

/-- Index-choice function used for the repeated-cdr3 run. -/
def pickC4 : Nat → Nat := fun s => if s = 1 then 1 else 0

/-- Two positives with distinct cdr3s and epitopes. -/
def dfAB : List Row := [⟨"A", some "X", 1⟩, ⟨"B", some "Y", 1⟩]

/-- Reference corpus matching dfAB. -/
def fullAB : List SPair := [("A", some "X"), ("B", some "Y")]

/-- The table add_negatives pickZ 0 dfAB fullAB false returns. -/
def outAB : List Row :=
  [⟨"A", some "X", 1⟩, ⟨"B", some "Y", 1⟩, ⟨"A", some "Y", 0⟩, ⟨"B", some "X", 0⟩]

/-- Positive corpus in which cdr3 A occurs in two rows. -/
def dfC4 : List Row :=
  [⟨"A", some "X", 1⟩, ⟨"A", some "Y", 1⟩, ⟨"B", some "Z", 1⟩, ⟨"C", some "W", 1⟩]

/-- Reference corpus matching dfC4. -/
def fullC4 : List SPair :=
  [("A", some "X"), ("A", some "Y"), ("B", some "Z"), ("C", some "W")]

/-- Positive corpus containing a duplicated positive row (A, X). -/
def dfC5 : List Row :=
  [⟨"A", some "X", 1⟩, ⟨"A", some "X", 1⟩, ⟨"B", some "Y", 1⟩, ⟨"C", some "Z", 1⟩]

/-- Reference corpus for dfC5. -/
def fullC5 : List SPair := [("A", some "X"), ("B", some "Y"), ("C", some "Z")]

/-- First-pass pairs of the run on dfC5 with pickZ: both rows of cdr3 A draw
the same epitope, so the merged frame carries both an all-positive duplicate
and an all-negative duplicate, i.e. two distinct labels among duplicates. -/
def psC5w : List SPair :=
  [("A", some "Y"), ("A", some "Y"), ("B", some "X"), ("C", some "X")]

/-- Positive corpus driving the retry loop up to the soft threshold: both
rows of cdr3 A can only draw Z or W, and pickC6 keeps drawing Z. -/
def dfC6 : List Row :=
  [⟨"A", some "X", 1⟩, ⟨"A", some "Y", 1⟩, ⟨"C", some "Z", 1⟩, ⟨"D", some "W", 1⟩]

/-- Reference corpus matching dfC6. -/
def fullC6 : List SPair :=
  [("A", some "X"), ("A", some "Y"), ("C", some "Z"), ("D", some "W")]

/-- The merged exclusion frame of the dfC6 run. -/
def fdfC6 : List SPair := fullMerge dfC6 fullC6

/-- The initial-pass pairs of the dfC6 run. -/
def psC6 : List SPair := firstPassPairs pickC6 dfC6 fdfC6

/-- The loop state of the dfC6 run after 49 iterations: the same state that
add_negatives pickC6 0 dfC6 fullC6 false reaches inside runLoopFrom. -/
def stC6 : LoopSt :=
  iterateF (loopStep pickC6 fdfC6) 49 (loopInit (dfC6 ++ rowsOf psC6) psC6)

/-- Per-target-mode corpus whose first epitope X has a candidate pool that is
nonempty but smaller than its positive count. -/
def dfC7 : List Row := [⟨"A", some "X", 1⟩, ⟨"B", some "X", 1⟩, ⟨"C", some "Y", 1⟩]

/-- Reference corpus matching dfC7. -/
def fullC7 : List SPair := [("A", some "X"), ("B", some "X"), ("C", some "Y")]

/-- Positives used for the augmentation runs. -/
def dfC8 : List Row := [⟨"p", some "X", 1⟩, ⟨"q", some "X", 1⟩]

/-- Background pool with a duplicated cdr3 value. Modelled from the spec:
stands for the length-filtered cdr3 column of the external background file. -/
def poolC8 : List String := ["c", "c"]

/-- Positives used for the non-terminating augmentation run. -/
def dfC3 : List Row := [⟨"p", some "X", 1⟩, ⟨"q", some "X", 1⟩, ⟨"r", some "X", 1⟩]

/-- Background pool whose three rows all carry the same cdr3 value. Modelled
from the spec as for poolC8. -/
def poolC3 : List String := ["c", "c", "c"]

/-- Input with a single unique epitope and a duplicated positive row. -/
def dfC2 : List Row := [⟨"A", some "X", 1⟩, ⟨"A", some "X", 1⟩]

/-! ## Witnesses and counterexamples for the claims -/

set_option maxRecDepth 1000000

/-- C1 witness: the no-false-negative theorem applied to the concrete run of
add_negatives pickZ 0 dfAB fullAB false, whose output is outAB. -/
theorem no_false_negatives_witness :
    (∀ r ∈ dfAB, r.y = 1) ∧ (∀ r ∈ dfAB, (r.epitope).isSome = true) ∧
      ∀ r ∈ outAB, r.y = 0 → rkey r ∉ fullAB ∧ ¬ ∃ rr ∈ dfAB, rkey rr = rkey r :=
  ⟨by decide, by decide,
    no_false_negatives pickZ 0 dfAB fullAB false outAB (by decide) (by decide)
      (by decide)⟩

/-- C2 counterexample: with a single unique epitope, add_negatives returns the
input unchanged, so a duplicated input pair survives in the returned table. -/
theorem single_epitope_dup_passthrough :
    add_negatives pickZ 0 dfC2 [] false = some dfC2 ∧
      ¬ (dfC2.map rkey).Nodup := by decide

theorem nodup_of_hasDupKeys_false (l : List Row) (h : hasDupKeys l = false) :
    (l.map rkey).Nodup := by
  unfold hasDupKeys at h
  exact not_not.mp (decide_eq_false_iff_not.mp h)

/-- C2 (amended): whenever add_negatives actually performs generation (the
input has two or more unique epitope cells), every returned table has
pairwise distinct (cdr3, epitope) keys, in both modes; only the
single-epitope early return can hand back duplicates, since it returns the
input unchanged. -/
theorem generated_table_nodup (pick : Nat → Nat) (g : Nat) (df : List Row)
    (full : List SPair) (mode : Bool) (out : List Row)
    (h1 : (uniqueF (df.map (fun r => r.epitope))).length ≠ 1)
    (h : add_negatives pick g df full mode = some out) :
    (out.map rkey).Nodup := by
  rcases add_negatives_some_cases pick g df full mode out h with
    ⟨he, _⟩ | ⟨ps, _, _, _, hrest⟩
  · exact absurd he h1
  · rcases hrest with ⟨_, hnd, hout⟩ | ⟨_, hrun⟩
    · exact hout.symm ▸ nodup_of_hasDupKeys_false _ hnd
    · exact nodup_of_hasDupKeys_false out (runLoopFrom_some _ _ _ _ out hrun).2

/-- C2 witness: the amended no-duplicates theorem applied to the concrete run
on dfAB. -/
theorem generated_table_nodup_witness :
    ((uniqueF (dfAB.map (fun r => r.epitope))).length ≠ 1) ∧ (outAB.map rkey).Nodup :=
  ⟨by decide,
    generated_table_nodup pickZ 0 dfAB fullAB false outAB (by decide) (by decide)⟩

/-- C3 counterexample: augment_negatives has no retry bound; on this input its
duplicate-replacement loop is still running after 199 retry rounds, far past
the claimed hard bound of 100, because each round re-draws the single
background cdr3 value and recreates the same NaN-epitope duplicate. -/
theorem augment_loop_unbounded :
    augment_negatives pickZ poolC3 dfC3 3 200 = AugRes.timeout := by decide

/-- C4 counterexample: cdr3 A is satisfiable and occurs in two positive rows
of dfC4; the returned table carries two label-0 rows for A, not exactly one,
because the sampler attempts once per row (4 attempts) rather than once per
unique cdr3 (3 uniques). -/
theorem per_source_two_negatives_for_one_cdr3 :
    (add_negatives pickC4 0 dfC4 fullC4 false).map
        (fun out => out.countP (fun r => decide (r.cdr3 = "A" ∧ r.y = 0))) = some 2 ∧
      (uniqueF (dfC4.map (fun r => r.cdr3))).length = 3 ∧ dfC4.length = 4 := by decide

/-- C4 witness: the amended per-source theorem applied to the concrete run on
dfAB. -/
theorem per_source_row_attempts_and_coverage_witness :
    (∀ r ∈ dfAB, r.y = 1) ∧ (∀ r ∈ dfAB, (r.epitope).isSome = true) ∧
      ((firstPassPairs pickZ dfAB (fullMerge dfAB fullAB)).length = dfAB.length ∧
        ∀ c, c ∈ dfAB.map (fun r => r.cdr3) →
          possibleEpitopes c dfAB (fullMerge dfAB fullAB) ≠ [] →
          ∃ r ∈ outAB, r.cdr3 = c ∧ r.y = 0) :=
  ⟨by decide, by decide,
    per_source_row_attempts_and_coverage pickZ 0 dfAB fullAB outAB (by decide)
      (by decide) (by decide)⟩

/-- C5 counterexample: dfC5 contains the positive row (A, X) twice; the run
completes without any assertion error (it returns a table), yet only one copy
of the duplicated positive row survives: a label-1 duplicate was silently
dropped because the check only compares the number of distinct labels among
duplicated rows. -/
theorem positive_duplicate_dropped_silently :
    dfC5.countP (fun r => decide (r = ⟨"A", some "X", 1⟩)) = 2 ∧
      (add_negatives pickC5 0 dfC5 fullC5 false).map
        (fun out => out.countP (fun r => decide (r = ⟨"A", some "X", 1⟩))) = some 1 := by
  decide

/-- C5 (amended): the duplicate check raises exactly when the duplicated rows
of the merged frame carry more than one distinct label (a label-1 row
colliding with a label-0 row): in that case add_negatives aborts with an
assertion error; a duplicate group consisting solely of label-1 rows passes
the check and its surplus rows are dropped silently. -/
theorem dup_check_raises_on_mixed_labels (pick : Nat → Nat) (g : Nat)
    (df : List Row) (full : List SPair) (mode : Bool) (ps : List SPair)
    (h1 : (uniqueF (df.map (fun r => r.epitope))).length ≠ 1)
    (hps : initialPairs pick g df (fullMerge df full) mode = some ps)
    (hlab : labelsOk (df ++ rowsOf ps) = false) :
    add_negatives pick g df full mode = none := by
  cases hres : add_negatives pick g df full mode with
  | none => rfl
  | some out =>
    exfalso
    rcases add_negatives_some_cases pick g df full mode out hres with
      ⟨he, _⟩ | ⟨ps2, _, hps2, hlab2, _⟩
    · exact h1 he
    · have hps3 : ps2 = ps := Option.some.inj (hps2.symm.trans hps)
      subst hps3
      rw [hlab] at hlab2
      exact absurd hlab2 (by simp)

/-- C5 witness: the run on dfC5 with pickZ makes both rows of cdr3 A draw the
same negative epitope, so the merged frame holds a label-1 duplicate group
and a label-0 duplicate group at once, and add_negatives aborts. -/
theorem dup_check_raises_on_mixed_labels_witness :
    ((uniqueF (dfC5.map (fun r => r.epitope))).length ≠ 1) ∧
      initialPairs pickZ 0 dfC5 (fullMerge dfC5 fullC5) false = some psC5w ∧
      labelsOk (dfC5 ++ rowsOf psC5w) = false ∧
      add_negatives pickZ 0 dfC5 fullC5 false = none :=
  ⟨by decide, by decide, by decide,
    dup_check_raises_on_mixed_labels pickZ 0 dfC5 fullC5 false psC5w (by decide)
      (by decide) (by decide)⟩

/-- C6 (amended): in per-source mode, a retry iteration whose incremented
count is strictly below the soft threshold of 50 resamples exactly the cdr3s
of the rows flagged as duplicates, seeded with the incremented count; at a
count of exactly 50 the iteration only emits a warning and re-appends the
previous round's sampled pairs unchanged, without resampling. -/
theorem retry_below_soft_resamples_duplicates (pick : Nat → Nat)
    (fdf : List SPair) (s : LoopSt) (htd : s.toDo ≠ []) :
    (s.n + 1 < 50 → stepPairs pick fdf s =
      some (s.toDo.map
        (fun r => sample_epitope_per_cdr3 pick r.cdr3 s.df fdf (s.n + 1)))) ∧
    (s.n + 1 = 50 → stepPairs pick fdf s = some s.prev) := by
  constructor
  · intro hlt
    unfold stepPairs
    rw [if_neg (by omega), if_neg (by omega)]
  · intro heq
    unfold stepPairs
    rw [if_pos heq]

/-- C6 counterexample: the run of add_negatives pickC6 0 dfC6 fullC6 false
enters the retry loop and, after 49 iterations, reaches the genuine loop
state stC6 with counter 49 and a nonempty duplicate set; the 50th iteration
appends the stale pairs of round 49 instead of resampling the duplicate cdr3
with seed 50, which would have produced a different pair. -/
theorem retry_at_soft_threshold_reuses_stale :
    labelsOk (dfC6 ++ rowsOf psC6) = true ∧
      stC6.n = 49 ∧ stC6.toDo ≠ [] ∧
      stepPairs pickC6 fdfC6 stC6 = some stC6.prev ∧
      stepPairs pickC6 fdfC6 stC6 ≠ some (stC6.toDo.map
        (fun r => sample_epitope_per_cdr3 pickC6 r.cdr3 stC6.df fdfC6 (stC6.n + 1))) := by
  decide

/-- C6 witness: the amended retry theorem applied to a concrete loop state
with counter 0 and one flagged duplicate row. -/
theorem retry_below_soft_resamples_duplicates_witness :
    ((⟨false, false, 0, [], [⟨"A", some "X", 0⟩], []⟩ : LoopSt).toDo ≠ []) ∧
      stepPairs pickZ [] ⟨false, false, 0, [], [⟨"A", some "X", 0⟩], []⟩ =
        some ((⟨false, false, 0, [], [⟨"A", some "X", 0⟩], []⟩ : LoopSt).toDo.map
          (fun r => sample_epitope_per_cdr3 pickZ r.cdr3
            (⟨false, false, 0, [], [⟨"A", some "X", 0⟩], []⟩ : LoopSt).df [] 1)) :=
  ⟨by decide,
    (retry_below_soft_resamples_duplicates pickZ []
      ⟨false, false, 0, [], [⟨"A", some "X", 0⟩], []⟩ (by decide)).1 (by decide)⟩

/-- C7: on dfC7 the epitope X needs two cdr3s but its candidate pool is the
single cdr3 C, so the clip branch is reached with the local name logger still
unbound, and both the per-epitope sampler and add_negatives in per-target
mode abort (UnboundLocalError) instead of clipping, warning and returning the
pool-sized sample. -/
theorem ratio_clip_crashes_unbound_logger :
    possibleCdr3s (some "X") dfC7 (fullMerge dfC7 fullC7) = ["C"] ∧
      dfC7.countP (fun r => cellEq r.epitope (some "X")) = 2 ∧
      sample_cdr3s_per_epitope pickZ 42 dfC7 (fullMerge dfC7 fullC7) = none ∧
      add_negatives pickZ 0 dfC7 fullC7 true = none := by decide

/-- C8: a duplicate produced by the initial augmentation round is replaced in
the retry round by a row whose epitope cell is missing (NaN) and whose label
is 0, because the retry samples the y column of the positives instead of the
epitope column; the replacement is not paired with an epitope from the
positive distribution. -/
theorem augment_retry_pairs_nan_epitope :
    augment_negatives pickZ poolC8 dfC8 2 10 =
      AugRes.out [⟨"p", some "X", 1⟩, ⟨"q", some "X", 1⟩,
        ⟨"c", some "X", 0⟩, ⟨"c", none, 0⟩] := by decide

/-- C9: the output of add_negatives does not depend on the ambient numpy
global RNG state at call time: the per-target mode reseeds the global state
with the fixed seed 42 before sampling, and the per-source mode uses only
per-call seeds derived from row positions and iteration counters. -/
theorem add_negatives_independent_of_ambient_rng (pick : Nat → Nat)
    (df : List Row) (full : List SPair) (mode : Bool) (g g2 : Nat) :
    add_negatives pick g df full mode = add_negatives pick g2 df full mode := rfl

/-- C10: with epitope_ratio set, add_negatives is exactly the straight-line
single-pass computation: one invocation of the per-epitope sampler after
reseeding, one append of label-0 rows, the two asserts, and no
deduplication, no dropna and no retry loop. -/
theorem ratio_mode_single_pass (pick : Nat → Nat) (g : Nat) (df : List Row)
    (full : List SPair) :
    add_negatives pick g df full true = ratioSinglePass pick df full := rfl
